import Mathlib

/-!
Shallow embedding of the data-processing core of the `mf-insights-dashboard`
repository and proofs about it.

Embedded code:
* `generate_summary_table` from `src/utils/comparator.py`;
* `create_comparison_analysis` (the parts of it that compute
  `stock_scheme_count` and the `Number_of_Schemes` / `Schemes` fields of
  `holdings_comparison`) and `categorize_market_cap` from `src/app.py`.

Modelling conventions:
* A Python dict is an association list in insertion order; a JSON holding
  record becomes a structure whose possibly-missing keys are `Option` fields;
  subscripting a missing key (Python `KeyError`) is modelled by
  `Except String`.
* Python floats are modelled by `ℚ`; `round(x, 2)` by exact half-to-even
  rounding (`round2`).  ASCII lower-casing (`lowerStr`) models `str.lower`
  on the ASCII names the dashboard handles.
* The iteration order of a Python `set` of strings is hash-dependent and
  unspecified, so `max(set(xs), key=xs.count)` is parameterised by an oracle
  `setOrder` producing some enumeration of the distinct elements of `xs`; a
  legal oracle is one whose output is a permutation of the distinct elements
  in first-occurrence order (`firstDedup xs`).
* `pandas.DataFrame.sort_values` is called with its default, unstable sort
  kind, so it is modelled relationally: any permutation of the table that is
  non-increasing on the key column is a possible output (`pandasSortDesc`).
* `load_holdings` (file I/O) and the market-cap columns of the processed
  sheets are outside every claim and are not modelled; the aggregator is
  parameterised by the in-memory data those loaders would produce.
-/

namespace MF

deriving instance DecidableEq for Except

/-- ASCII lower-casing of a string, the model of Python `str.lower()` on the
ASCII names occurring in this dashboard. -/
def lowerStr (s : String) : String :=
  String.mk (s.data.map Char.toLower)

/-- Strip surrounding whitespace, the model of Python `str.strip()`. -/
def stripStr (s : String) : String :=
  String.mk (((s.data.dropWhile Char.isWhitespace).reverse.dropWhile
    Char.isWhitespace).reverse)

/-- One holding record of a scheme, as read from the raw JSON.  The three
keys used by the comparator may each be absent (`none`). -/
structure HoldingRec where
  stock : Option String
  percent_aum : Option ℚ
  sentiment : Option String
deriving DecidableEq

/-- The in-memory form of `load_holdings()`: scheme name to its list of
holding records, in insertion order. -/
abbrev Holdings := List (String × List HoldingRec)

/-- The list comprehension
`[s for s in stocks if s["stock"].lower() == stock.lower()]` of
`generate_summary_table`: it evaluates `s["stock"]` on every record, so a
record with no `stock` key raises `KeyError` even if other records match. -/
def schemeMatches (target : String) : List HoldingRec → Except String (List HoldingRec)
  | [] => .ok []
  | r :: rs =>
    match r.stock with
    | none => .error "KeyError: stock"
    | some s =>
      match schemeMatches target rs with
      | .error e => .error e
      | .ok rest => .ok (if lowerStr s = lowerStr target then r :: rest else rest)

/-- The per-stock accumulator of the scheme loop of `generate_summary_table`
(`fund_count`, `total_percent`, `sentiments`). -/
structure StockAcc where
  fund_count : ℕ
  total_percent : ℚ
  sentiments : List String
deriving DecidableEq

/-- One iteration of the `for scheme, stocks in holdings.items()` loop:
if any record matched, read `percent_aum` and `sentiment` off the FIRST
match (`matched[0]`), raising `KeyError` when they are absent. -/
def stepScheme (target : String) (acc : StockAcc) (recs : List HoldingRec) :
    Except String StockAcc :=
  match schemeMatches target recs with
  | .error e => .error e
  | .ok [] => .ok acc
  | .ok (m :: _) =>
    match m.percent_aum with
    | none => .error "KeyError: percent_aum"
    | some p =>
      match m.sentiment with
      | none => .error "KeyError: sentiment"
      | some sen =>
        .ok ⟨acc.fund_count + 1, acc.total_percent + p, acc.sentiments ++ [sen]⟩

/-- The whole scheme loop of `generate_summary_table` for one target stock. -/
def stockAccum (target : String) (acc : StockAcc) : Holdings → Except String StockAcc
  | [] => .ok acc
  | (_, recs) :: rest =>
    match stepScheme target acc recs with
    | .error e => .error e
    | .ok acc2 => stockAccum target acc2 rest

/-- Round half to even, the model of Python `round` on an exact value. -/
def roundHalfEven (q : ℚ) : ℤ :=
  let f := ⌊q⌋
  if q - f < 1 / 2 then f
  else if 1 / 2 < q - f then f + 1
  else if f % 2 = 0 then f else f + 1

/-- The model of Python `round(x, 2)`. -/
def round2 (q : ℚ) : ℚ :=
  (roundHalfEven (q * 100) : ℚ) / 100

/-- Python `max(iterable, key=key)`: the first element of the iterable whose
key is maximal (a later element replaces the champion only when strictly
greater). -/
def pyMax (key : String → ℕ) : List String → Option String
  | [] => none
  | x :: xs => some (xs.foldl (fun best y => if key best < key y then y else best) x)

/-- Distinct elements of a list in first-occurrence order (helper). -/
def firstDedupAux (seen : List String) : List String → List String
  | [] => []
  | x :: xs =>
    if x ∈ seen then firstDedupAux seen xs
    else x :: firstDedupAux (x :: seen) xs

/-- Distinct elements of a list in first-occurrence order. -/
def firstDedup (l : List String) : List String := firstDedupAux [] l

/-- `max(set(sentiments), key=sentiments.count) if sentiments else "Not Held"`.
The enumeration order of the Python set is supplied by the oracle
`setOrder`. -/
def dominant_sentiment (setOrder : List String → List String)
    (sentiments : List String) : String :=
  match sentiments with
  | [] => "Not Held"
  | _ => (pyMax (fun s => sentiments.count s) (setOrder sentiments)).getD "Not Held"

/-- One output row of `generate_summary_table`; its four fields model the
dict keys `Stock`, `# Funds Holding`, `Avg % AUM` and `Sentiment`. -/
structure SummaryRow where
  Stock : String
  funds_holding : ℕ
  avg_aum : ℚ
  Sentiment : String
deriving DecidableEq

/-- The body of the `for stock in top_stocks` loop of
`generate_summary_table`, producing one summary row. -/
def summarizeStock (setOrder : List String → List String) (holdings : Holdings)
    (stock : String) : Except String SummaryRow :=
  match stockAccum stock ⟨0, 0, []⟩ holdings with
  | .error e => .error e
  | .ok acc =>
    .ok { Stock := stock
        , funds_holding := acc.fund_count
        , avg_aum :=
            if acc.fund_count = 0 then 0
            else round2 (acc.total_percent / (acc.fund_count : ℚ))
        , Sentiment := dominant_sentiment setOrder acc.sentiments }

/-- The `rows` list built for one cap type. -/
def summarizeAll (setOrder : List String → List String) (holdings : Holdings) :
    List String → Except String (List SummaryRow)
  | [] => .ok []
  | s :: rest =>
    match summarizeStock setOrder holdings s with
    | .error e => .error e
    | .ok row =>
      match summarizeAll setOrder holdings rest with
      | .error e => .error e
      | .ok rows => .ok (row :: rows)

/-- `generate_summary_table` of `src/utils/comparator.py`, parameterised by
the in-memory holdings and top-stock lists its three loaders return. -/
def generate_summary_table (setOrder : List String → List String)
    (holdings : Holdings) (top_small top_mid : List String) :
    Except String (List (String × List SummaryRow)) :=
  match summarizeAll setOrder holdings top_small with
  | .error e => .error e
  | .ok small =>
    match summarizeAll setOrder holdings top_mid with
    | .error e => .error e
    | .ok mid => .ok [("small_cap", small), ("mid_cap", mid)]

/-- Whether an embedded computation completed without a Python exception. -/
def exceptIsOk {α : Type} : Except String α → Bool
  | .ok _ => true
  | .error _ => false

/-! Declarative companions used to state theorems about the loop above. -/

/-- A record matches a target stock name exactly when its `stock` key is
present and equal to the target after lower-casing (no trimming). -/
def matchesName (target : String) (r : HoldingRec) : Bool :=
  match r.stock with
  | some s => lowerStr s = lowerStr target
  | none => false

/-- The matching records of one scheme, ignoring `KeyError`s. -/
def pureMatches (target : String) (recs : List HoldingRec) : List HoldingRec :=
  recs.filter (matchesName target)

/-- Names of the schemes holding a target stock (one entry per association
list entry with at least one matching record). -/
def schemesHolding (target : String) (holdings : Holdings) : List String :=
  (holdings.filter (fun p => !(pureMatches target p.2).isEmpty)).map Prod.fst

/-- The values `f` extracted from the first matching record of each scheme
that has both a match and the value. -/
def firstMatchVals {α : Type} (f : HoldingRec → Option α) (target : String)
    (holdings : Holdings) : List α :=
  holdings.filterMap (fun p => (pureMatches target p.2).head?.bind f)

/-- Modelled from the spec: two names denote the same stock exactly when
they agree case-insensitively after trimming surrounding whitespace. -/
def spec_name_eq (a b : String) : Bool :=
  lowerStr (stripStr a) = lowerStr (stripStr b)

/-- Modelled from the spec: the numeric `percent_aum` values of ALL rows
matching a target stock (rows missing the value are skipped). -/
def spec_matching_aums (target : String) (holdings : Holdings) : List ℚ :=
  holdings.flatMap (fun p =>
    (p.2.filter (fun r =>
      match r.stock with
      | some s => spec_name_eq s target
      | none => false)).filterMap (fun r => r.percent_aum))

/-- Modelled from the spec: the sentiment values of ALL rows matching a
target stock (rows missing the value are skipped). -/
def spec_matching_sentiments (target : String) (holdings : Holdings) : List String :=
  holdings.flatMap (fun p =>
    (p.2.filter (fun r =>
      match r.stock with
      | some s => spec_name_eq s target
      | none => false)).filterMap (fun r => r.sentiment))

/-- Modelled from the spec: `avg_percent_aum` as the arithmetic mean of the
available `percent_aum` values over all matching rows, `0` when none. -/
def spec_avg_percent_aum (target : String) (holdings : Holdings) : ℚ :=
  let vals := spec_matching_aums target holdings
  if vals.length = 0 then 0 else vals.sum / (vals.length : ℚ)

/-- Modelled from the spec: the mode of the sentiments with ties broken by
the first-encountered value in stable iteration order. -/
def spec_first_mode (sentiments : List String) : String :=
  match sentiments with
  | [] => "Not Held"
  | _ => (pyMax (fun s => sentiments.count s) (firstDedup sentiments)).getD "Not Held"

/-! The comparison-analysis part of `src/app.py`. -/

/-- The slice of one processed sheet that `create_comparison_analysis`
reads: whether the sheet has a `Stock Invested in` column, and that
column's per-row values (`none` models a NaN cell). -/
structure PSheet where
  has_stock_col : Bool
  stock_vals : List (Option String)
deriving DecidableEq

/-- `processed_data`: sheet name to sheet, in insertion order. -/
abbrev SheetData := List (String × PSheet)

/-- `combined_df` restricted to its `Scheme` and `Stock Invested in`
columns: rows of every sheet having the stock column, each tagged with its
sheet name as the scheme. -/
def combinedRows (data : SheetData) : List (String × Option String) :=
  (data.filter (fun p => p.2.has_stock_col)).flatMap
    (fun p => p.2.stock_vals.map (fun v => (p.1, v)))

/-- Lexicographic comparison of strings by code point, the order pandas
uses to sort string group keys. -/
def lexLeChars : List Char → List Char → Bool
  | [], _ => true
  | _ :: _, [] => false
  | x :: xs, y :: ys => if x < y then true else if y < x then false else lexLeChars xs ys

/-- Insert into an ascending list (helper for `sortAsc`). -/
def insertAsc (x : String) : List String → List String
  | [] => [x]
  | y :: ys => if lexLeChars x.data y.data then x :: y :: ys else y :: insertAsc x ys

/-- Ascending sort of group keys, as `pandas.groupby` produces them. -/
def sortAsc (l : List String) : List String := l.foldr insertAsc []

/-- The group keys of `combined_df.groupby('Stock Invested in')`: the
distinct non-NaN stock values, ascending.  Grouping is by exact string
equality. -/
def sccKeys (data : SheetData) : List String :=
  sortAsc (firstDedup ((combinedRows data).filterMap Prod.snd))

/-- `['Scheme'].nunique()` for one stock group: the number of distinct
schemes among the rows whose stock cell equals the key exactly. -/
def nuniqueSchemes (data : SheetData) (stock : String) : ℕ :=
  (firstDedup (((combinedRows data).filter
    (fun r => r.2 = some stock)).map Prod.fst)).length

/-- The `stock_scheme_count` table as produced by the groupby, before the
descending `sort_values` call. -/
def stock_scheme_count (data : SheetData) : List (String × ℕ) :=
  (sccKeys data).map (fun s => (s, nuniqueSchemes data s))

/-- A table is non-increasing on its count column. -/
def sortedDescB : List (String × ℕ) → Bool
  | [] => true
  | [_] => true
  | a :: b :: rest => (decide (b.2 ≤ a.2)) && sortedDescB (b :: rest)

/-- The contract of `sort_values('Number_of_Schemes', ascending=False)`
with the default unstable sort kind: the output is some permutation of the
table that is non-increasing on the count column.  Nothing more is
guaranteed about the order of equal counts. -/
def pandasSortDesc (tbl out : List (String × ℕ)) : Prop :=
  tbl.Perm out ∧ sortedDescB out = true

/-- The rows of `combined_df` whose stock cell equals the given stock
exactly (`combined_df[combined_df['Stock Invested in'] == stock]`). -/
def hcStockRows (data : SheetData) (stock : String) : List (String × Option String) :=
  (combinedRows data).filter (fun r => r.2 = some stock)

/-- One `holdings_comparison` entry, restricted to the fields every claim
concerns: `Stock`, `Number_of_Schemes` (which the source computes as
`len(stock_data)`, a row count) and the joined `Schemes` string. -/
structure HCRow where
  Stock : String
  Number_of_Schemes : ℕ
  Schemes : String
deriving DecidableEq

/-- Build one `holdings_comparison` entry for a stock. -/
def holdingsComparisonRow (data : SheetData) (stock : String) : HCRow :=
  { Stock := stock
  , Number_of_Schemes := (hcStockRows data stock).length
  , Schemes := String.intercalate ", "
      (firstDedup ((hcStockRows data stock).map Prod.fst)) }

/-- The result record of `create_comparison_analysis`, restricted to the
columns the claims concern. -/
structure Analysis where
  combined_df : List (String × Option String)
  stock_scheme_count_sorted : List (String × ℕ)
  holdings_comparison : List HCRow
deriving DecidableEq

/-- `create_comparison_analysis` of `src/app.py`: `None` exactly when no
sheet has a `Stock Invested in` column; otherwise the combined table, the
sorted per-stock scheme counts (the unstable sort output is supplied as the
oracle `sortedScc`, constrained by `pandasSortDesc` where it matters) and
the per-stock comparison rows, one per stock of the sorted table. -/
def create_comparison_analysis (data : SheetData)
    (sortedScc : List (String × ℕ)) : Option Analysis :=
  if (data.filter (fun p => p.2.has_stock_col)).isEmpty then none
  else some
    { combined_df := combinedRows data
    , stock_scheme_count_sorted := sortedScc
    , holdings_comparison :=
        (firstDedup (sortedScc.map Prod.fst)).map (holdingsComparisonRow data) }

/-- Strict lexicographic comparison of strings by code point. -/
def lexLtChars : List Char → List Char → Bool
  | [], [] => false
  | [], _ :: _ => true
  | _ :: _, [] => false
  | x :: xs, y :: ys => if x < y then true else if y < x then false else lexLtChars xs ys

/-- Any two entries with equal counts appear in ascending name order: for
every entry, every LATER entry with the same count has a strictly larger
name. -/
def tiesAscB : List (String × ℕ) → Bool
  | [] => true
  | a :: rest =>
    (rest.all (fun b => decide (a.2 ≠ b.2) || lexLtChars a.1.data b.1.data)) && tiesAscB rest

/-! Concrete datasets used to separate the implementation from the spec. -/

/-- One scheme holding stock `A` in two rows with different `percent_aum`. -/
def hTwoRows : Holdings :=
  [("S1", [⟨some "A", some 1, some "Buy"⟩, ⟨some "A", some 3, some "Buy"⟩])]

/-- One scheme whose matching row has no `percent_aum`. -/
def hNoAum : Holdings := [("S1", [⟨some "A", none, some "Buy"⟩])]

/-- One scheme whose matching row has no `sentiment`. -/
def hNoSent : Holdings := [("S1", [⟨some "A", some 1, none⟩])]

/-- Two schemes holding stock `A` with tied sentiments `Buy` and `Hold`. -/
def hTie : Holdings :=
  [("S1", [⟨some "A", some 1, some "Buy"⟩]), ("S2", [⟨some "A", some 1, some "Hold"⟩])]

/-- A set-order oracle that enumerates the distinct elements in reverse of
first-occurrence order; a legal hash order for a Python set. -/
def setOrderRev (l : List String) : List String := (firstDedup l).reverse

/-- A scheme holding stock `A` in two rows with sentiments `Hold` then
`Buy`, and a second scheme holding it with `Buy`: the sentiments of all
matching rows are `[Hold, Buy, Buy]`, but the aggregator keeps only each
scheme's first match, `[Hold, Buy]`. -/
def hMulti : Holdings :=
  [("S1", [⟨some "A", some 1, some "Hold"⟩, ⟨some "A", some 1, some "Buy"⟩]),
   ("S2", [⟨some "A", some 1, some "Buy"⟩])]

/-- One scheme holding a stock whose name has leading whitespace. -/
def hPad : Holdings := [("S1", [⟨some " tcs", some 1, some "Buy"⟩])]

/-- A valid holding row followed by a row with no stock key, in a second
scheme. -/
def hBadRow : Holdings :=
  [("S1", [⟨some "A", some 1, some "Buy"⟩]), ("S2", [⟨none, none, none⟩])]

/-- Two sheets holding the same stock name in different letter case. -/
def dCase : SheetData := [("S1", ⟨true, [some "TCS"]⟩), ("S2", ⟨true, [some "tcs"]⟩)]

/-- One sheet listing stock `A` twice. -/
def dDup : SheetData := [("S1", ⟨true, [some "A", some "A"]⟩)]

/-- One sheet holding two distinct stocks once each. -/
def dAB : SheetData := [("S1", ⟨true, [some "A", some "B"]⟩)]

/-- One sheet without a `Stock Invested in` column. -/
def dNoCol : SheetData := [("S1", ⟨false, [some "A"]⟩)]

/-- `categorize_market_cap` of `src/app.py` on an exact value. -/
def categorize_market_cap (market_cap_value : Option ℚ) : String :=
  match market_cap_value with
  | none => "Unknown"
  | some v =>
    let market_cap_inr_crores := v * 83 / 10000000
    if market_cap_inr_crores ≥ 20000 then "Large Cap"
    else if market_cap_inr_crores ≥ 5000 then "Mid Cap"
    else "Small Cap"

/-! General lemmas about the helper functions. -/

theorem mem_firstDedupAux {x : String} :
    ∀ (seen l : List String), x ∈ firstDedupAux seen l ↔ x ∈ l ∧ x ∉ seen := by
  intro seen l
  induction l generalizing seen with
  | nil => simp [firstDedupAux]
  | cons a as ih =>
    simp only [firstDedupAux]
    by_cases h : a ∈ seen
    · rw [if_pos h, ih]
      by_cases hxa : x = a
      · subst hxa; simp [h]
      · simp [hxa]
    · rw [if_neg h]
      simp only [List.mem_cons, ih]
      by_cases hxa : x = a
      · subst hxa; simp [h]
      · simp [hxa]

theorem mem_firstDedup {x : String} {l : List String} :
    x ∈ firstDedup l ↔ x ∈ l := by
  simp [firstDedup, mem_firstDedupAux]

theorem nodup_firstDedupAux :
    ∀ (seen l : List String), (firstDedupAux seen l).Nodup := by
  intro seen l
  induction l generalizing seen with
  | nil => simp [firstDedupAux]
  | cons a as ih =>
    by_cases h : a ∈ seen
    · simpa [firstDedupAux, h] using ih seen
    · simp only [firstDedupAux, if_neg h, List.nodup_cons]
      refine ⟨fun hmem => ?_, ih (a :: seen)⟩
      exact ((mem_firstDedupAux _ _).mp hmem).2 (List.mem_cons_self a seen)

theorem nodup_firstDedup (l : List String) : (firstDedup l).Nodup :=
  nodup_firstDedupAux [] l

theorem firstDedup_toFinset (l : List String) :
    (firstDedup l).toFinset = l.toFinset := by
  ext x
  simp [List.mem_toFinset, mem_firstDedup]

theorem firstDedup_length_eq_card (l : List String) :
    (firstDedup l).length = l.toFinset.card := by
  rw [← firstDedup_toFinset, List.toFinset_card_of_nodup (nodup_firstDedup l)]

theorem firstDedup_length_mono {l₁ l₂ : List String} (h : l₁ ⊆ l₂) :
    (firstDedup l₁).length ≤ (firstDedup l₂).length := by
  rw [firstDedup_length_eq_card, firstDedup_length_eq_card]
  exact Finset.card_le_card (fun x hx => by
    simp only [List.mem_toFinset] at hx ⊢
    exact h hx)

theorem firstDedup_length_of_nodup {l : List String} (h : l.Nodup) :
    (firstDedup l).length = l.length := by
  rw [firstDedup_length_eq_card, List.toFinset_card_of_nodup h]

theorem firstDedup_ne_nil {l : List String} (h : l ≠ []) : firstDedup l ≠ [] := by
  cases l with
  | nil => exact absurd rfl h
  | cons a as =>
    intro hcontra
    have : a ∈ firstDedup (a :: as) := mem_firstDedup.mpr (List.mem_cons_self a as)
    rw [hcontra] at this
    exact List.not_mem_nil a this

theorem pyMax_foldl_mem (key : String → ℕ) :
    ∀ (xs : List String) (x : String),
      xs.foldl (fun best y => if key best < key y then y else best) x ∈ x :: xs := by
  intro xs
  induction xs with
  | nil => intro x; simp
  | cons a as ih =>
    intro x
    simp only [List.foldl_cons]
    rcases List.mem_cons.mp (ih (if key x < key a then a else x)) with h | h
    · rw [h]
      by_cases hc : key x < key a
      · rw [if_pos hc]; exact List.mem_cons_of_mem _ (List.mem_cons_self a as)
      · rw [if_neg hc]; exact List.mem_cons_self x (a :: as)
    · exact List.mem_cons_of_mem _ (List.mem_cons_of_mem _ h)

theorem pyMax_foldl_maximal (key : String → ℕ) :
    ∀ (xs : List String) (x : String),
      ∀ y ∈ x :: xs,
        key y ≤ key (xs.foldl (fun best y => if key best < key y then y else best) x) := by
  intro xs
  induction xs with
  | nil => intro x y hy; simp at hy; simp [hy]
  | cons a as ih =>
    intro x y hy
    simp only [List.foldl_cons]
    have hstep : key x ≤ key (if key x < key a then a else x) ∧
        key a ≤ key (if key x < key a then a else x) := by
      by_cases hc : key x < key a
      · rw [if_pos hc]; exact ⟨Nat.le_of_lt hc, Nat.le_refl _⟩
      · rw [if_neg hc]; exact ⟨Nat.le_refl _, Nat.le_of_not_lt hc⟩
    rcases List.mem_cons.mp hy with rfl | hy2
    · exact le_trans hstep.1
        (ih _ _ (List.mem_cons_self _ as))
    · rcases List.mem_cons.mp hy2 with rfl | hy3
      · exact le_trans hstep.2 (ih _ _ (List.mem_cons_self _ as))
      · exact ih _ y (List.mem_cons_of_mem _ hy3)

theorem pyMax_mem {key : String → ℕ} {l : List String} {b : String}
    (h : pyMax key l = some b) : b ∈ l := by
  cases l with
  | nil => simp [pyMax] at h
  | cons x xs =>
    simp only [pyMax, Option.some.injEq] at h
    exact h ▸ pyMax_foldl_mem key xs x

theorem pyMax_maximal {key : String → ℕ} {l : List String} {b : String}
    (h : pyMax key l = some b) : ∀ y ∈ l, key y ≤ key b := by
  cases l with
  | nil => simp [pyMax] at h
  | cons x xs =>
    simp only [pyMax, Option.some.injEq] at h
    exact fun y hy => h ▸ pyMax_foldl_maximal key xs x y hy

/-- The dominant-sentiment computation returns a most frequent sentiment,
for any legal enumeration of the sentiment set. -/
theorem dominant_sentiment_spec {setOrder : List String → List String}
    {l : List String} (hord : (setOrder l).Perm (firstDedup l)) (hne : l ≠ []) :
    dominant_sentiment setOrder l ∈ l ∧
      ∀ s ∈ l, l.count s ≤ l.count (dominant_sentiment setOrder l) := by
  have hone : setOrder l ≠ [] := by
    intro hcontra
    exact firstDedup_ne_nil hne (List.Perm.nil_eq (hcontra ▸ hord)).symm
  obtain ⟨x, xs, hx⟩ := List.exists_cons_of_ne_nil hone
  have hpm : pyMax (fun s => l.count s) (setOrder l) =
      some (xs.foldl (fun best y =>
        if l.count best < l.count y then y else best) x) := by
    rw [hx]; rfl
  set b := xs.foldl (fun best y => if l.count best < l.count y then y else best) x with hb
  have hbmem : b ∈ l := by
    have := pyMax_mem hpm
    have h2 : b ∈ firstDedup l := hord.mem_iff.mp this
    exact mem_firstDedup.mp h2
  have hbmax : ∀ s ∈ l, l.count s ≤ l.count b := by
    intro s hs
    have hsmem : s ∈ setOrder l := hord.mem_iff.mpr (mem_firstDedup.mpr hs)
    exact pyMax_maximal hpm s hsmem
  obtain ⟨y, ys, hl⟩ := List.exists_cons_of_ne_nil hne
  have hds : dominant_sentiment setOrder l = b := by
    rw [hl]
    show (pyMax (fun s => (y :: ys).count s) (setOrder (y :: ys))).getD "Not Held" = b
    rw [← hl, hpm]
    rfl
  rw [hds]
  exact ⟨hbmem, hbmax⟩

theorem mem_insertAsc {x y : String} {l : List String} :
    x ∈ insertAsc y l ↔ x = y ∨ x ∈ l := by
  induction l with
  | nil => simp [insertAsc]
  | cons a as ih =>
    simp only [insertAsc]
    by_cases h : lexLeChars y.data a.data
    · simp [h]
    · simp only [if_neg h, List.mem_cons, ih]
      tauto

theorem insertAsc_perm (x : String) (l : List String) :
    (insertAsc x l).Perm (x :: l) := by
  induction l with
  | nil => simp [insertAsc]
  | cons a as ih =>
    simp only [insertAsc]
    by_cases h : lexLeChars x.data a.data
    · rw [if_pos h]
    · rw [if_neg h]
      exact (List.Perm.cons a ih).trans (List.Perm.swap x a as)

theorem sortAsc_perm (l : List String) : (sortAsc l).Perm l := by
  induction l with
  | nil => simp [sortAsc]
  | cons a as ih =>
    have : sortAsc (a :: as) = insertAsc a (sortAsc as) := rfl
    rw [this]
    exact (insertAsc_perm a (sortAsc as)).trans (List.Perm.cons a ih)

theorem mem_sortAsc {x : String} {l : List String} : x ∈ sortAsc l ↔ x ∈ l :=
  (sortAsc_perm l).mem_iff

/-! Characterisation of the comparator loop. -/

theorem schemeMatches_ok_of {target : String} {recs : List HoldingRec}
    (h : ∀ r ∈ recs, r.stock ≠ none) :
    schemeMatches target recs = .ok (pureMatches target recs) := by
  induction recs with
  | nil => rfl
  | cons r rs ih =>
    have hr := h r (List.mem_cons_self r rs)
    obtain ⟨s, hs⟩ := Option.ne_none_iff_exists'.mp hr
    have htail := ih (fun r2 hr2 => h r2 (List.mem_cons_of_mem r hr2))
    simp only [schemeMatches, hs, htail, pureMatches, List.filter_cons, matchesName]
    by_cases hc : lowerStr s = lowerStr target
    · simp [hs, hc]
    · simp [hs, hc]

theorem schemeMatches_ok_inv {target : String} {recs : List HoldingRec}
    {ms : List HoldingRec} (h : schemeMatches target recs = .ok ms) :
    (∀ r ∈ recs, r.stock ≠ none) ∧ ms = pureMatches target recs := by
  induction recs generalizing ms with
  | nil =>
    simp only [schemeMatches, Except.ok.injEq] at h
    subst h
    exact ⟨by simp, rfl⟩
  | cons r rs ih =>
    simp only [schemeMatches] at h
    cases hr : r.stock with
    | none => rw [hr] at h; exact absurd h (by simp)
    | some s =>
      rw [hr] at h
      cases htail : schemeMatches target rs with
      | error e => rw [htail] at h; exact absurd h (by simp)
      | ok rest =>
        rw [htail] at h
        simp only [Except.ok.injEq] at h
        obtain ⟨hall, hrest⟩ := ih htail
        refine ⟨fun r2 hr2 => ?_, ?_⟩
        · rcases List.mem_cons.mp hr2 with rfl | hmem
          · simp [hr]
          · exact hall r2 hmem
        · subst h
          simp only [pureMatches, List.filter_cons, matchesName, hr, hrest]
          by_cases hc : lowerStr s = lowerStr target

          · simp [hc, pureMatches]
          · simp [hc, pureMatches]

theorem schemeMatches_error_of {target : String} {recs : List HoldingRec}
    (h : ∃ r ∈ recs, r.stock = none) :
    schemeMatches target recs = .error "KeyError: stock" := by
  induction recs with
  | nil => simp at h
  | cons r rs ih =>
    obtain ⟨r0, hr0, hnone⟩ := h
    rcases List.mem_cons.mp hr0 with rfl | hmem
    · simp [schemeMatches, hnone]
    · cases hr : r.stock with
      | none => simp [schemeMatches, hr]
      | some s => simp [schemeMatches, hr, ih ⟨r0, hmem, hnone⟩]

theorem stepScheme_ok_inv {target : String} {acc acc2 : StockAcc}
    {recs : List HoldingRec} (h : stepScheme target acc recs = .ok acc2) :
    (pureMatches target recs = [] ∧ acc2 = acc) ∨
    (∃ m rest p sen, pureMatches target recs = m :: rest ∧
      m.percent_aum = some p ∧ m.sentiment = some sen ∧
      acc2 = ⟨acc.fund_count + 1, acc.total_percent + p, acc.sentiments ++ [sen]⟩) := by
  simp only [stepScheme] at h
  split at h
  · exact absurd h (by simp)
  · rename_i ms hsm
    simp only [Except.ok.injEq] at h
    obtain ⟨-, hms⟩ := schemeMatches_ok_inv hsm
    exact Or.inl ⟨hms.symm, h.symm⟩
  · rename_i ms m rest hsm
    obtain ⟨-, hms⟩ := schemeMatches_ok_inv hsm
    split at h
    · exact absurd h (by simp)
    · rename_i p hp
      split at h
      · exact absurd h (by simp)
      · rename_i sen hsen
        simp only [Except.ok.injEq] at h
        exact Or.inr ⟨m, rest, p, sen, hms.symm, hp, hsen, h.symm⟩

theorem stockAccum_ok_inv {target : String} :
    ∀ {hs : Holdings} {acc res : StockAcc},
      stockAccum target acc hs = .ok res →
      res.fund_count = acc.fund_count + (schemesHolding target hs).length ∧
      res.total_percent = acc.total_percent +
        (firstMatchVals (fun r => r.percent_aum) target hs).sum ∧
      res.sentiments = acc.sentiments ++
        firstMatchVals (fun r => r.sentiment) target hs := by
  intro hs
  induction hs with
  | nil =>
    intro acc res h
    simp only [stockAccum, Except.ok.injEq] at h
    simp [h, schemesHolding, firstMatchVals]
  | cons p rest ih =>
    intro acc res h
    obtain ⟨name, recs⟩ := p
    simp only [stockAccum] at h
    cases hstep : stepScheme target acc recs with
    | error e => rw [hstep] at h; exact absurd h (by simp)
    | ok acc2 =>
      rw [hstep] at h
      obtain ⟨hfc, htp, hsen⟩ := ih h
      rcases stepScheme_ok_inv hstep with ⟨hempty, rfl⟩ | ⟨m, r2, pa, sen, hcons, hpa, hsen2, rfl⟩
      · constructor
        · rw [hfc]
          simp [schemesHolding, List.filter_cons, hempty]
        · constructor
          · rw [htp]
            simp [firstMatchVals, List.filterMap_cons, hempty]
          · rw [hsen]
            simp [firstMatchVals, List.filterMap_cons, hempty]
      · constructor
        · rw [hfc]
          simp only [schemesHolding, List.filter_cons, hcons]
          simp [Nat.add_assoc, Nat.add_comm 1, schemesHolding]
        · constructor
          · rw [htp]
            simp only [firstMatchVals, List.filterMap_cons, hcons, List.head?_cons,
              Option.some_bind, hpa, List.sum_cons]
            rw [add_assoc]
          · rw [hsen]
            simp only [firstMatchVals, List.filterMap_cons, hcons, List.head?_cons,
              Option.some_bind, hsen2]
            simp [List.append_assoc]

theorem stockAccum_ok_of {target : String} :
    ∀ {hs : Holdings} (acc : StockAcc),
      (∀ p ∈ hs, ∀ r ∈ p.2, r.stock ≠ none) →
      (∀ p ∈ hs, ∀ m rest, pureMatches target p.2 = m :: rest →
        m.percent_aum ≠ none ∧ m.sentiment ≠ none) →
      ∃ res, stockAccum target acc hs = .ok res := by
  intro hs
  induction hs with
  | nil => intro acc _ _; exact ⟨acc, rfl⟩
  | cons p rest ih =>
    intro acc hstock hfields
    obtain ⟨name, recs⟩ := p
    have hsm : schemeMatches target recs = .ok (pureMatches target recs) :=
      schemeMatches_ok_of (hstock _ (List.mem_cons_self _ rest))
    have hstep : ∃ acc2, stepScheme target acc recs = .ok acc2 := by
      simp only [stepScheme, hsm]
      cases hpm : pureMatches target recs with
      | nil => exact ⟨acc, rfl⟩
      | cons m r2 =>
        obtain ⟨hpa, hsen⟩ := hfields _ (List.mem_cons_self _ rest) m r2 hpm
        obtain ⟨pa, hpa2⟩ := Option.ne_none_iff_exists'.mp hpa
        obtain ⟨sen, hsen2⟩ := Option.ne_none_iff_exists'.mp hsen
        refine ⟨⟨acc.fund_count + 1, acc.total_percent + pa,
          acc.sentiments ++ [sen]⟩, ?_⟩
        simp [hpa2, hsen2]
    obtain ⟨acc2, hacc2⟩ := hstep
    obtain ⟨res, hres⟩ := ih acc2
      (fun q hq => hstock q (List.mem_cons_of_mem _ hq))
      (fun q hq => hfields q (List.mem_cons_of_mem _ hq))
    refine ⟨res, ?_⟩
    simp [stockAccum, hacc2, hres]

theorem stockAccum_error_of_badstock {target : String} :
    ∀ {hs : Holdings} (acc : StockAcc),
      (∃ p ∈ hs, ∃ r ∈ p.2, r.stock = none) →
      ∃ e, stockAccum target acc hs = .error e := by
  intro hs
  induction hs with
  | nil => intro acc h; simp at h
  | cons p rest ih =>
    intro acc hbad
    obtain ⟨q, hq, r0, hr0, hnone⟩ := hbad
    rcases List.mem_cons.mp hq with rfl | hmem
    · have hsm : schemeMatches target q.2 = .error "KeyError: stock" :=
        schemeMatches_error_of ⟨r0, hr0, hnone⟩
      refine ⟨"KeyError: stock", ?_⟩
      obtain ⟨name, recs⟩ := q
      simp only at hsm
      simp [stockAccum, stepScheme, hsm]
    · obtain ⟨name, recs⟩ := p
      cases hstep : stepScheme target acc recs with
      | error e => exact ⟨e, by simp [stockAccum, hstep]⟩
      | ok acc2 =>
        obtain ⟨e, he⟩ := ih acc2 ⟨q, hmem, r0, hr0, hnone⟩
        exact ⟨e, by simp [stockAccum, hstep, he]⟩

theorem summarizeStock_ok_inv {setOrder : List String → List String}
    {holdings : Holdings} {s : String} {row : SummaryRow}
    (h : summarizeStock setOrder holdings s = .ok row) :
    ∃ acc, stockAccum s ⟨0, 0, []⟩ holdings = .ok acc ∧
      row.Stock = s ∧ row.funds_holding = acc.fund_count ∧
      row.avg_aum = (if acc.fund_count = 0 then 0
        else round2 (acc.total_percent / (acc.fund_count : ℚ))) ∧
      row.Sentiment = dominant_sentiment setOrder acc.sentiments := by
  simp only [summarizeStock] at h
  cases hacc : stockAccum s ⟨0, 0, []⟩ holdings with
  | error e => rw [hacc] at h; exact absurd h (by simp)
  | ok acc =>
    rw [hacc] at h
    simp only [Except.ok.injEq] at h
    exact ⟨acc, rfl, by rw [← h], by rw [← h], by rw [← h], by rw [← h]⟩

theorem summarizeAll_ok_mem {setOrder : List String → List String}
    {holdings : Holdings} :
    ∀ {ss : List String} {rows : List SummaryRow},
      summarizeAll setOrder holdings ss = .ok rows →
      rows.map (fun r => r.Stock) = ss ∧
      ∀ row ∈ rows, summarizeStock setOrder holdings row.Stock = .ok row := by
  intro ss
  induction ss with
  | nil =>
    intro rows h
    simp only [summarizeAll, Except.ok.injEq] at h
    subst h
    simp
  | cons s rest ih =>
    intro rows h
    simp only [summarizeAll] at h
    cases hrow : summarizeStock setOrder holdings s with
    | error e => rw [hrow] at h; exact absurd h (by simp)
    | ok row =>
      rw [hrow] at h
      cases htail : summarizeAll setOrder holdings rest with
      | error e => rw [htail] at h; exact absurd h (by simp)
      | ok rows2 =>
        rw [htail] at h
        simp only [Except.ok.injEq] at h
        subst h
        obtain ⟨hmap, hmem⟩ := ih htail
        have hstock : row.Stock = s := (summarizeStock_ok_inv hrow).choose_spec.2.1
        refine ⟨by simp [hstock, hmap], fun r hr => ?_⟩
        rcases List.mem_cons.mp hr with rfl | hr2
        · rw [hstock]; exact hrow
        · exact hmem r hr2

theorem generate_ok_inv {setOrder : List String → List String}
    {holdings : Holdings} {ts tm : List String}
    {m : List (String × List SummaryRow)}
    (h : generate_summary_table setOrder holdings ts tm = .ok m) :
    ∃ small mid, m = [("small_cap", small), ("mid_cap", mid)] ∧
      summarizeAll setOrder holdings ts = .ok small ∧
      summarizeAll setOrder holdings tm = .ok mid := by
  simp only [generate_summary_table] at h
  cases hsmall : summarizeAll setOrder holdings ts with
  | error e => rw [hsmall] at h; exact absurd h (by simp)
  | ok small =>
    rw [hsmall] at h
    cases hmid : summarizeAll setOrder holdings tm with
    | error e => rw [hmid] at h; exact absurd h (by simp)
    | ok mid =>
      rw [hmid] at h
      simp only [Except.ok.injEq] at h
      exact ⟨small, mid, h.symm, rfl, rfl⟩

/-! Characterisation of the comparison-analysis embedding. -/

theorem mem_sccKeys {data : SheetData} {s : String} :
    s ∈ sccKeys data ↔ ∃ row ∈ combinedRows data, row.2 = some s := by
  simp [sccKeys, mem_sortAsc, mem_firstDedup, List.mem_filterMap]

theorem mem_stock_scheme_count {data : SheetData} {s : String} {n : ℕ} :
    (s, n) ∈ stock_scheme_count data ↔
      s ∈ sccKeys data ∧ n = nuniqueSchemes data s := by
  simp only [stock_scheme_count, List.mem_map]
  constructor
  · rintro ⟨a, ha, heq⟩
    injection heq with h1 h2
    subst h1; subst h2
    exact ⟨ha, rfl⟩
  · rintro ⟨hs, rfl⟩
    exact ⟨s, hs, rfl⟩

theorem nuniqueSchemes_le_distinct (data : SheetData) (s : String) :
    nuniqueSchemes data s ≤
      (firstDedup ((combinedRows data).map Prod.fst)).length := by
  apply firstDedup_length_mono
  intro x hx
  simp only [List.mem_map] at hx ⊢
  obtain ⟨row, hrow, rfl⟩ := hx
  exact ⟨row, (List.mem_filter.mp hrow).1, rfl⟩

theorem schemesHolding_nodup {target : String} {holdings : Holdings}
    (h : (holdings.map Prod.fst).Nodup) : (schemesHolding target holdings).Nodup :=
  h.sublist ((List.filter_sublist holdings).map Prod.fst)

theorem create_comparison_analysis_none_iff {data : SheetData}
    {sortedScc : List (String × ℕ)} :
    create_comparison_analysis data sortedScc = none ↔
      data.filter (fun p => p.2.has_stock_col) = [] := by
  by_cases h : (data.filter (fun p => p.2.has_stock_col)).isEmpty
  · simp [create_comparison_analysis, h, List.isEmpty_iff.mp h]
  · simp only [create_comparison_analysis, if_neg h]
    simp only [List.isEmpty_iff] at h
    simp [h]

theorem create_comparison_analysis_some_inv {data : SheetData}
    {sortedScc : List (String × ℕ)} {ana : Analysis}
    (h : create_comparison_analysis data sortedScc = some ana) :
    ana.combined_df = combinedRows data ∧
    ana.stock_scheme_count_sorted = sortedScc ∧
    ana.holdings_comparison =
      (firstDedup (sortedScc.map Prod.fst)).map (holdingsComparisonRow data) := by
  simp only [create_comparison_analysis] at h
  split at h
  · exact absurd h (by simp)
  · simp only [Option.some.injEq] at h
    subst h
    exact ⟨rfl, rfl, rfl⟩

/-! Concrete evaluations of the embedded pipeline, shared by several
claims below. -/

theorem eval_hTwoRows :
    generate_summary_table firstDedup hTwoRows ["A"] [] =
      .ok [("small_cap", [⟨"A", 1, 1, "Buy"⟩]), ("mid_cap", [])] := by
  simp +decide [hTwoRows, generate_summary_table, summarizeAll, summarizeStock, stockAccum,
    stepScheme, schemeMatches, dominant_sentiment, pyMax, firstDedup, firstDedupAux, lowerStr]
  norm_num [round2, roundHalfEven]

theorem eval_hTie_rev :
    generate_summary_table setOrderRev hTie ["A"] [] =
      .ok [("small_cap", [⟨"A", 2, 1, "Hold"⟩]), ("mid_cap", [])] := by
  simp +decide [hTie, generate_summary_table, summarizeAll, summarizeStock, stockAccum,
    stepScheme, schemeMatches, dominant_sentiment, pyMax, setOrderRev, firstDedup,
    firstDedupAux, lowerStr]
  norm_num [round2, roundHalfEven]

theorem eval_hTie_fd :
    generate_summary_table firstDedup hTie ["A"] [] =
      .ok [("small_cap", [⟨"A", 2, 1, "Buy"⟩]), ("mid_cap", [])] := by
  simp +decide [hTie, generate_summary_table, summarizeAll, summarizeStock, stockAccum,
    stepScheme, schemeMatches, dominant_sentiment, pyMax, firstDedup,
    firstDedupAux, lowerStr]
  norm_num [round2, roundHalfEven]

theorem eval_hPad :
    generate_summary_table firstDedup hPad ["TCS"] [] =
      .ok [("small_cap", [⟨"TCS", 0, 0, "Not Held"⟩]), ("mid_cap", [])] := by
  decide

theorem eval_hMulti :
    generate_summary_table firstDedup hMulti ["A"] [] =
      .ok [("small_cap", [⟨"A", 2, 1, "Hold"⟩]), ("mid_cap", [])] := by
  simp +decide [hMulti, generate_summary_table, summarizeAll, summarizeStock, stockAccum,
    stepScheme, schemeMatches, dominant_sentiment, pyMax, firstDedup,
    firstDedupAux, lowerStr]
  norm_num [round2, roundHalfEven]

/-- Every row of a successful summary comes from `summarizeStock` on its
own stock name. -/
theorem generate_ok_rows {setOrder : List String → List String}
    {holdings : Holdings} {ts tm : List String}
    {m : List (String × List SummaryRow)}
    (h : generate_summary_table setOrder holdings ts tm = .ok m) :
    ∀ p ∈ m, ∀ row ∈ p.2,
      summarizeStock setOrder holdings row.Stock = .ok row := by
  obtain ⟨small, mid, rfl, hsmall, hmid⟩ := generate_ok_inv h
  intro p hp row hrow
  rcases List.mem_cons.mp hp with rfl | hp2
  · exact (summarizeAll_ok_mem hsmall).2 row hrow
  · rcases List.mem_cons.mp hp2 with rfl | hp3
    · exact (summarizeAll_ok_mem hmid).2 row hrow
    · simp at hp3

theorem matchesName_eq_true_iff {t : String} {r : HoldingRec} :
    matchesName t r = true ↔ ∃ s, r.stock = some s ∧ lowerStr s = lowerStr t := by
  cases hr : r.stock <;> simp [matchesName, hr]

theorem fund_count_countP (t : String) (holdings : Holdings) :
    (schemesHolding t holdings).length =
      holdings.countP (fun q =>
        decide (∃ r ∈ q.2, ∃ s, r.stock = some s ∧ lowerStr s = lowerStr t)) := by
  rw [schemesHolding, List.length_map, ← List.countP_eq_length_filter]
  apply List.countP_congr
  intro q _
  simp only [decide_eq_true_eq, Bool.not_eq_true', List.isEmpty_iff]
  constructor
  · intro h
    cases hpm : pureMatches t q.2 with
    | nil => rw [hpm] at h; simp at h
    | cons a l =>
      have ha : a ∈ pureMatches t q.2 := hpm ▸ List.mem_cons_self a l
      have ha2 := List.mem_filter.mp ha
      exact ⟨a, ha2.1, matchesName_eq_true_iff.mp ha2.2⟩
  · rintro ⟨r, hrmem, s, hs, hls⟩
    have hmem : r ∈ pureMatches t q.2 :=
      List.mem_filter.mpr ⟨hrmem, matchesName_eq_true_iff.mpr ⟨s, hs, hls⟩⟩
    cases hpm : pureMatches t q.2 with
    | nil => rw [hpm] at hmem; exact absurd hmem (List.not_mem_nil r)
    | cons a l => rfl

theorem scc_map_fst (data : SheetData) :
    (stock_scheme_count data).map Prod.fst = sccKeys data := by
  rw [stock_scheme_count, List.map_map]
  have hfun : (Prod.fst ∘ fun s => (s, nuniqueSchemes data s)) =
      fun s : String => s := rfl
  rw [hfun]
  exact List.map_id' (sccKeys data)

/-! Settling the claims. -/

/-- C1, counterexample: on a sheet that lists stock `A` twice, the
`holdings_comparison` table of `create_comparison_analysis` reports
`Number_of_Schemes = 2` for `A` although only one distinct scheme holds it
(the nunique-based `stock_scheme_count` correctly reports 1), so the
reported per-stock scheme count is the row count, not the distinct-scheme
count. -/
theorem scheme_count_row_count_cex :
    pandasSortDesc (stock_scheme_count dDup) [("A", 1)] ∧
    create_comparison_analysis dDup [("A", 1)] =
      some ⟨[("S1", some "A"), ("S1", some "A")], [("A", 1)],
        [⟨"A", 2, "S1"⟩]⟩ ∧
    nuniqueSchemes dDup "A" = 1 ∧ (2 : ℕ) ≠ 1 :=
  ⟨⟨by decide, by decide⟩, by decide, by decide, by decide⟩

/-- C1, amended: the comparator's `fund_count` and the nunique-based
`Number_of_Schemes` of `stock_scheme_count` equal the number of distinct
schemes holding the stock, but the `Number_of_Schemes` field of
`holdings_comparison` equals the number of matching rows, which can exceed
the distinct-scheme count when a scheme lists a stock more than once. -/
theorem scheme_counts_characterised :
    (∀ (setOrder : List String → List String) (holdings : Holdings)
      (ts tm : List String) (m : List (String × List SummaryRow)),
      (holdings.map Prod.fst).Nodup →
      generate_summary_table setOrder holdings ts tm = .ok m →
      ∀ p ∈ m, ∀ row ∈ p.2,
        row.funds_holding = (schemesHolding row.Stock holdings).toFinset.card) ∧
    (∀ (data : SheetData) (s : String) (n : ℕ),
      (s, n) ∈ stock_scheme_count data →
      n = ((hcStockRows data s).map Prod.fst).toFinset.card) ∧
    (∀ (data : SheetData) (sortedScc : List (String × ℕ)) (ana : Analysis),
      create_comparison_analysis data sortedScc = some ana →
      ∀ row ∈ ana.holdings_comparison,
        row.Number_of_Schemes = (hcStockRows data row.Stock).length) := by
  refine ⟨?_, ?_, ?_⟩
  · intro so holdings ts tm m hnd hok p hp row hrow
    obtain ⟨acc, hacc, -, hfc, -, -⟩ :=
      summarizeStock_ok_inv (generate_ok_rows hok p hp row hrow)
    obtain ⟨hfc2, -, -⟩ := stockAccum_ok_inv hacc
    rw [hfc, hfc2, Nat.zero_add,
      List.toFinset_card_of_nodup (schemesHolding_nodup hnd)]
  · intro data s n hmem
    obtain ⟨-, rfl⟩ := mem_stock_scheme_count.mp hmem
    rw [show nuniqueSchemes data s =
        (firstDedup ((hcStockRows data s).map Prod.fst)).length from rfl,
      firstDedup_length_eq_card]
  · intro data ss ana hsome row hrow
    obtain ⟨-, -, hhc⟩ := create_comparison_analysis_some_inv hsome
    rw [hhc] at hrow
    obtain ⟨s, hs, rfl⟩ := List.mem_map.mp hrow
    rfl

/-- C1, witness: concrete instantiations of both directions of the amended
claim. -/
theorem scheme_counts_characterised_witness :
    (SummaryRow.mk "A" 2 1 "Buy").funds_holding =
      (schemesHolding "A" hTie).toFinset.card ∧
    (HCRow.mk "A" 2 "S1").Number_of_Schemes = (hcStockRows dDup "A").length := by
  constructor
  · exact scheme_counts_characterised.1 firstDedup hTie ["A"] [] _
      (by decide) eval_hTie_fd ("small_cap", [⟨"A", 2, 1, "Buy"⟩])
      (by simp) ⟨"A", 2, 1, "Buy"⟩ (by simp)
  · exact scheme_counts_characterised.2.2 dDup [("A", 1)]
      ⟨[("S1", some "A"), ("S1", some "A")], [("A", 1)], [⟨"A", 2, "S1"⟩]⟩
      (by decide) ⟨"A", 2, "S1"⟩ (by simp)

/-- C2, counterexample: a scheme holding stock `A` in two rows with
`percent_aum` 1 and 3 yields `Avg % AUM = 1` (only the first matching row
per scheme is used), whereas the mean over all matching rows mandated by
the claim is 2. -/
theorem avg_aum_cex :
    generate_summary_table firstDedup hTwoRows ["A"] [] =
      .ok [("small_cap", [⟨"A", 1, 1, "Buy"⟩]), ("mid_cap", [])] ∧
    spec_avg_percent_aum "A" hTwoRows = 2 ∧ (1 : ℚ) ≠ 2 := by
  refine ⟨eval_hTwoRows, ?_, by norm_num⟩
  norm_num [hTwoRows, spec_avg_percent_aum, spec_matching_aums, spec_name_eq,
    lowerStr, stripStr, List.filterMap]

/-- C2, amended: on a normal completion, a row's `Avg % AUM` is 0 when no
scheme matches (and the stock is still one of the output rows, which
enumerate exactly the requested stocks), and otherwise equals
`round(·, 2)` of the mean over matching schemes of the FIRST matching
row's `percent_aum`. -/
theorem avg_aum_first_match :
    (∀ (setOrder : List String → List String) (holdings : Holdings)
      (ts tm : List String) (m : List (String × List SummaryRow)),
      generate_summary_table setOrder holdings ts tm = .ok m →
      ∀ p ∈ m, ∀ row ∈ p.2,
        (schemesHolding row.Stock holdings = [] → row.avg_aum = 0) ∧
        (schemesHolding row.Stock holdings ≠ [] →
          row.avg_aum = round2
            ((firstMatchVals (fun r => r.percent_aum) row.Stock holdings).sum /
              ((schemesHolding row.Stock holdings).length : ℚ)))) ∧
    (∀ (setOrder : List String → List String) (holdings : Holdings)
      (ts tm : List String) (m : List (String × List SummaryRow)),
      generate_summary_table setOrder holdings ts tm = .ok m →
      ∀ p ∈ m, p.2.map (fun r => r.Stock) =
        (if p.1 = "small_cap" then ts else tm)) := by
  constructor
  · intro so holdings ts tm m hok p hp row hrow
    obtain ⟨acc, hacc, -, hfc, havg, -⟩ :=
      summarizeStock_ok_inv (generate_ok_rows hok p hp row hrow)
    obtain ⟨hfc2, htp, -⟩ := stockAccum_ok_inv hacc
    simp only [Nat.zero_add] at hfc2
    constructor
    · intro hempty
      rw [havg, hfc2, hempty]
      simp
    · intro hne
      have hlen : acc.fund_count ≠ 0 := by
        rw [hfc2]
        simpa [List.length_eq_zero] using hne
      rw [havg, if_neg hlen, htp, hfc2]
      norm_num
  · intro so holdings ts tm m hok p hp
    obtain ⟨small, mid, rfl, hs, hm⟩ := generate_ok_inv hok
    rcases List.mem_cons.mp hp with rfl | hp2
    · simpa using (summarizeAll_ok_mem hs).1
    · rcases List.mem_cons.mp hp2 with rfl | hp3
      · show mid.map (fun r => r.Stock) =
          if ("mid_cap" : String) = "small_cap" then ts else tm
        rw [if_neg (by decide)]
        exact (summarizeAll_ok_mem hm).1
      · simp at hp3

/-- C2, witness: the amended average formula evaluated on the two-row
dataset. -/
theorem avg_aum_first_match_witness :
    (SummaryRow.mk "A" 1 1 "Buy").avg_aum = round2
      ((firstMatchVals (fun r => r.percent_aum) "A" hTwoRows).sum /
        ((schemesHolding "A" hTwoRows).length : ℚ)) := by
  exact (avg_aum_first_match.1 firstDedup hTwoRows ["A"] [] _ eval_hTwoRows
    ("small_cap", [⟨"A", 1, 1, "Buy"⟩]) (by simp) ⟨"A", 1, 1, "Buy"⟩
    (by simp)).2 (by decide)

/-- C3, counterexample: a holding record missing `percent_aum` (resp.
`sentiment`) makes the aggregator raise `KeyError` instead of substituting
a default and completing normally. -/
theorem missing_optional_raises_cex :
    generate_summary_table firstDedup hNoAum ["A"] [] =
      .error "KeyError: percent_aum" ∧
    generate_summary_table firstDedup hNoSent ["A"] [] =
      .error "KeyError: sentiment" :=
  ⟨rfl, rfl⟩

/-- C3, amended: the aggregator completes normally when every record
carries all three keys; a missing `percent_aum` or `sentiment` on the
first matching row of a scheme raises `KeyError` (no default is
substituted). -/
theorem all_fields_present_ok :
    ∀ (setOrder : List String → List String) (holdings : Holdings)
      (ts tm : List String),
      (∀ p ∈ holdings, ∀ r ∈ p.2,
        r.stock ≠ none ∧ r.percent_aum ≠ none ∧ r.sentiment ≠ none) →
      exceptIsOk (generate_summary_table setOrder holdings ts tm) = true := by
  intro so holdings ts tm h
  have hstep : ∀ s : String, ∃ row, summarizeStock so holdings s = .ok row := by
    intro s
    obtain ⟨res, hres⟩ := @stockAccum_ok_of s holdings ⟨0, 0, []⟩
      (fun p hp r hr => (h p hp r hr).1)
      (fun p hp m rest hpm => by
        have hm : m ∈ p.2 := by
          have hmem : m ∈ pureMatches s p.2 := hpm ▸ List.mem_cons_self m rest
          exact List.mem_of_mem_filter hmem
        exact ⟨(h p hp m hm).2.1, (h p hp m hm).2.2⟩)
    refine ⟨SummaryRow.mk s res.fund_count
      (if res.fund_count = 0 then 0
        else round2 (res.total_percent / (res.fund_count : ℚ)))
      (dominant_sentiment so res.sentiments), ?_⟩
    simp [summarizeStock, hres]
  have hall : ∀ ss : List String, ∃ rows, summarizeAll so holdings ss = .ok rows := by
    intro ss
    induction ss with
    | nil => exact ⟨[], rfl⟩
    | cons s rest ih =>
      obtain ⟨row, hrow⟩ := hstep s
      obtain ⟨rows, hrows⟩ := ih
      exact ⟨row :: rows, by simp [summarizeAll, hrow, hrows]⟩
  obtain ⟨small, hsmall⟩ := hall ts
  obtain ⟨mid, hmid⟩ := hall tm
  simp [generate_summary_table, hsmall, hmid, exceptIsOk]

/-- C3, witness: a fully-populated dataset completes normally. -/
theorem all_fields_present_ok_witness :
    exceptIsOk (generate_summary_table firstDedup hTie ["A"] []) = true :=
  all_fields_present_ok firstDedup hTie ["A"] [] (by decide)

/-- C4, counterexample, in two parts.  (i) The tie-break is not the
first-encountered value: with tied sentiments `Buy` (encountered first)
and `Hold`, a legal hash order of the Python set makes the aggregator
report `Hold`.  (ii) The result need not even be a most frequent value
among the matches: on `hMulti` the matching rows carry
`[Hold, Buy, Buy]`, whose unique mode is `Buy`, yet the aggregator keeps
only each scheme's FIRST matching row (`[Hold, Buy]`) and reports `Hold`
already under the first-occurrence set order. -/
theorem dominant_tiebreak_cex :
    ((setOrderRev ["Buy", "Hold"]).Perm (firstDedup ["Buy", "Hold"]) ∧
     firstMatchVals (fun r => r.sentiment) "A" hTie = ["Buy", "Hold"] ∧
     generate_summary_table setOrderRev hTie ["A"] [] =
       .ok [("small_cap", [⟨"A", 2, 1, "Hold"⟩]), ("mid_cap", [])] ∧
     spec_first_mode ["Buy", "Hold"] = "Buy" ∧ ("Hold" : String) ≠ "Buy") ∧
    (spec_matching_sentiments "A" hMulti = ["Hold", "Buy", "Buy"] ∧
     spec_first_mode ["Hold", "Buy", "Buy"] = "Buy" ∧
     firstMatchVals (fun r => r.sentiment) "A" hMulti = ["Hold", "Buy"] ∧
     generate_summary_table firstDedup hMulti ["A"] [] =
       .ok [("small_cap", [⟨"A", 2, 1, "Hold"⟩]), ("mid_cap", [])] ∧
     ("Hold" : String) ≠ "Buy") :=
  ⟨⟨by decide, by decide, eval_hTie_rev, by decide, by decide⟩,
   ⟨by decide, by decide, by decide, eval_hMulti, by decide⟩⟩

/-- C4, amended: for any legal set-iteration order, a row's `Sentiment` is
a most frequent value among the per-scheme first-match sentiments — one
sentiment per scheme holding the stock, taken from its first matching row
(later matching rows of a scheme are ignored) — with ties resolved by the
unspecified set order; it is the sentinel `"Not Held"` when no scheme
matches. -/
theorem dominant_sentiment_mode :
    ∀ (setOrder : List String → List String) (holdings : Holdings)
      (ts tm : List String) (m : List (String × List SummaryRow)),
      (∀ l, (setOrder l).Perm (firstDedup l)) →
      generate_summary_table setOrder holdings ts tm = .ok m →
      ∀ p ∈ m, ∀ row ∈ p.2,
        (firstMatchVals (fun r => r.sentiment) row.Stock holdings = [] →
          row.Sentiment = "Not Held") ∧
        (firstMatchVals (fun r => r.sentiment) row.Stock holdings ≠ [] →
          row.Sentiment ∈ firstMatchVals (fun r => r.sentiment) row.Stock holdings ∧
          ∀ s ∈ firstMatchVals (fun r => r.sentiment) row.Stock holdings,
            (firstMatchVals (fun r => r.sentiment) row.Stock holdings).count s ≤
            (firstMatchVals (fun r => r.sentiment) row.Stock holdings).count
              row.Sentiment) := by
  intro so holdings ts tm m hso hok p hp row hrow
  obtain ⟨acc, hacc, -, -, -, hsen⟩ :=
    summarizeStock_ok_inv (generate_ok_rows hok p hp row hrow)
  obtain ⟨-, -, hsen2⟩ := stockAccum_ok_inv hacc
  simp only [List.nil_append] at hsen2
  constructor
  · intro hempty
    rw [hsen, hsen2, hempty]
    rfl
  · intro hne
    rw [hsen, hsen2]
    exact dominant_sentiment_spec (hso _) hne

/-- C4, witness: with the identity (first-occurrence) set order on the tied
dataset the reported sentiment `Buy` is indeed of maximal frequency. -/
theorem dominant_sentiment_mode_witness :
    ("Buy" ∈ firstMatchVals (fun r => r.sentiment) "A" hTie) ∧
    (firstMatchVals (fun r => r.sentiment) "A" hTie).count "Hold" ≤
      (firstMatchVals (fun r => r.sentiment) "A" hTie).count "Buy" := by
  have h := (dominant_sentiment_mode firstDedup hTie ["A"] [] _
    (fun l => List.Perm.refl _) eval_hTie_fd
    ("small_cap", [⟨"A", 2, 1, "Buy"⟩]) (by simp) ⟨"A", 2, 1, "Buy"⟩
    (by simp)).2 (by decide)
  exact ⟨h.1, h.2 "Hold" (by decide)⟩

/-- C5, counterexample: `" tcs"` and `"TCS"` are the same name under the
claimed trim-and-case-fold equality, yet the comparator reports zero funds
holding `TCS`; and the comparison analysis groups `"TCS"` and `"tcs"`
(case-insensitively equal) into two separate stocks. -/
theorem name_matching_cex :
    generate_summary_table firstDedup hPad ["TCS"] [] =
      .ok [("small_cap", [⟨"TCS", 0, 0, "Not Held"⟩]), ("mid_cap", [])] ∧
    spec_name_eq " tcs" "TCS" = true ∧
    stock_scheme_count dCase = [("TCS", 1), ("tcs", 1)] ∧
    spec_name_eq "TCS" "tcs" = true :=
  ⟨eval_hPad, by decide, by decide, by decide⟩

/-- C5, amended: the comparator matches stock names case-insensitively
WITHOUT trimming (a scheme is counted iff it has a record whose stock key
equals the target after lower-casing only), and the comparison analysis
groups by exact string equality (a name is a group key iff it occurs
verbatim in some row). -/
theorem name_matching_semantics :
    (∀ (setOrder : List String → List String) (holdings : Holdings)
      (ts tm : List String) (m : List (String × List SummaryRow)),
      generate_summary_table setOrder holdings ts tm = .ok m →
      ∀ p ∈ m, ∀ row ∈ p.2,
        row.funds_holding = holdings.countP (fun q =>
          decide (∃ r ∈ q.2, ∃ s, r.stock = some s ∧
            lowerStr s = lowerStr row.Stock))) ∧
    (∀ (data : SheetData) (s : String),
      s ∈ (stock_scheme_count data).map Prod.fst ↔
        ∃ row ∈ combinedRows data, row.2 = some s) := by
  constructor
  · intro so holdings ts tm m hok p hp row hrow
    obtain ⟨acc, hacc, -, hfc, -, -⟩ :=
      summarizeStock_ok_inv (generate_ok_rows hok p hp row hrow)
    obtain ⟨hfc2, -, -⟩ := stockAccum_ok_inv hacc
    rw [hfc, hfc2, Nat.zero_add, fund_count_countP]
  · intro data s
    rw [scc_map_fst]
    exact mem_sccKeys

/-- C5, witness: the padded name is not counted by the comparator, and
`TCS` is a group key of the case-split dataset because it occurs
verbatim. -/
theorem name_matching_semantics_witness :
    ((SummaryRow.mk "TCS" 0 0 "Not Held").funds_holding = hPad.countP (fun q =>
      decide (∃ r ∈ q.2, ∃ s, r.stock = some s ∧ lowerStr s = lowerStr "TCS"))) ∧
    ("TCS" ∈ (stock_scheme_count dCase).map Prod.fst ↔
      ∃ row ∈ combinedRows dCase, row.2 = some "TCS") := by
  constructor
  · exact name_matching_semantics.1 firstDedup hPad ["TCS"] [] _ eval_hPad
      ("small_cap", [⟨"TCS", 0, 0, "Not Held"⟩]) (by simp)
      ⟨"TCS", 0, 0, "Not Held"⟩ (by simp)
  · exact name_matching_semantics.2 dCase "TCS"

/-- C6, counterexample: one malformed record (no stock key) in scheme `S2`
aborts the whole aggregation with `KeyError`, even though scheme `S1`
contains a perfectly valid matching row — malformed rows are not skipped. -/
theorem malformed_row_aborts_cex :
    generate_summary_table firstDedup hBadRow ["A"] [] =
      .error "KeyError: stock" ∧
    hBadRow.map Prod.fst = ["S1", "S2"] ∧
    matchesName "A" ⟨some "A", some 1, some "Buy"⟩ = true :=
  ⟨rfl, rfl, by decide⟩

/-- C6, amended: `create_comparison_analysis` returns the explicit error
signal `None` exactly when no sheet has a `Stock Invested in` column; the
comparator aborts with `KeyError` (rather than skipping) whenever any
scanned scheme contains a record without a stock key and at least one
stock is requested. -/
theorem error_signalling :
    (∀ (data : SheetData) (sortedScc : List (String × ℕ)),
      create_comparison_analysis data sortedScc = none ↔
        data.filter (fun p => p.2.has_stock_col) = []) ∧
    (∀ (setOrder : List String → List String) (holdings : Holdings)
      (ts tm : List String),
      ts ≠ [] →
      (∃ p ∈ holdings, ∃ r ∈ p.2, r.stock = none) →
      exceptIsOk (generate_summary_table setOrder holdings ts tm) = false) := by
  constructor
  · intro data ss
    exact create_comparison_analysis_none_iff
  · intro so holdings ts tm hne hbad
    obtain ⟨t, rest, rfl⟩ := List.exists_cons_of_ne_nil hne
    obtain ⟨e, he⟩ := @stockAccum_error_of_badstock t holdings ⟨0, 0, []⟩ hbad
    simp [generate_summary_table, summarizeAll, summarizeStock, he, exceptIsOk]

/-- C6, witness: a sheet set without the stock column yields `None`, and
the dataset with a bad row aborts. -/
theorem error_signalling_witness :
    (create_comparison_analysis dNoCol [] = none ↔
      dNoCol.filter (fun p => p.2.has_stock_col) = []) ∧
    exceptIsOk (generate_summary_table firstDedup hBadRow ["A"] []) = false := by
  refine ⟨error_signalling.1 dNoCol [],
    error_signalling.2 firstDedup hBadRow ["A"] [] (by decide) ?_⟩
  exact ⟨("S2", [⟨none, none, none⟩]), by decide, ⟨none, none, none⟩, by decide, rfl⟩

/-- C7: every reported `fund_count` (comparator) and nunique-based
`Number_of_Schemes` (`stock_scheme_count`) is at most the number of
distinct schemes present in the input. -/
theorem fund_count_bounded :
    (∀ (setOrder : List String → List String) (holdings : Holdings)
      (ts tm : List String) (m : List (String × List SummaryRow)),
      (holdings.map Prod.fst).Nodup →
      generate_summary_table setOrder holdings ts tm = .ok m →
      ∀ p ∈ m, ∀ row ∈ p.2,
        row.funds_holding ≤ (firstDedup (holdings.map Prod.fst)).length) ∧
    (∀ (data : SheetData) (s : String) (n : ℕ),
      (s, n) ∈ stock_scheme_count data →
      n ≤ (firstDedup ((combinedRows data).map Prod.fst)).length) := by
  constructor
  · intro so holdings ts tm m hnd hok p hp row hrow
    obtain ⟨acc, hacc, -, hfc, -, -⟩ :=
      summarizeStock_ok_inv (generate_ok_rows hok p hp row hrow)
    obtain ⟨hfc2, -, -⟩ := stockAccum_ok_inv hacc
    rw [hfc, hfc2, Nat.zero_add, firstDedup_length_of_nodup hnd]
    have hle : (schemesHolding row.Stock holdings).length ≤ holdings.length := by
      simp only [schemesHolding, List.length_map]
      exact List.length_filter_le _ _
    simpa [List.length_map] using hle
  · intro data s n hmem
    obtain ⟨-, rfl⟩ := mem_stock_scheme_count.mp hmem
    exact nuniqueSchemes_le_distinct data s

/-- C7, witness: concrete instantiations of both bounds. -/
theorem fund_count_bounded_witness :
    (SummaryRow.mk "A" 2 1 "Buy").funds_holding ≤
      (firstDedup (hTie.map Prod.fst)).length ∧
    (1 : ℕ) ≤ (firstDedup ((combinedRows dDup).map Prod.fst)).length := by
  constructor
  · exact fund_count_bounded.1 firstDedup hTie ["A"] [] _ (by decide)
      eval_hTie_fd ("small_cap", [⟨"A", 2, 1, "Buy"⟩]) (by simp)
      ⟨"A", 2, 1, "Buy"⟩ (by simp)
  · exact fund_count_bounded.2 dDup "A" 1 (by decide)

/-- C8, counterexample: on two stocks with equal counts, the output
`[("B", 1), ("A", 1)]` satisfies everything the code guarantees about
`sort_values` (a permutation of the table, non-increasing in the count),
is accepted by `create_comparison_analysis`, yet its equal-count entries
are not in ascending name order. -/
theorem sort_tiebreak_cex :
    pandasSortDesc (stock_scheme_count dAB) [("B", 1), ("A", 1)] ∧
    create_comparison_analysis dAB [("B", 1), ("A", 1)] ≠ none ∧
    tiesAscB [("B", 1), ("A", 1)] = false :=
  ⟨⟨by decide, by decide⟩, by decide, by decide⟩

/-- C8, amended: the displayed table is some permutation of the per-stock
distinct-scheme counts that is non-increasing in the count column; the
relative order of stocks with equal counts is unspecified (no secondary
sort key is passed). -/
theorem sort_contract :
    ∀ (data : SheetData) (out : List (String × ℕ)),
      pandasSortDesc (stock_scheme_count data) out →
      sortedDescB out = true ∧
      (∀ (s : String) (n : ℕ),
        (s, n) ∈ out ↔ (s, n) ∈ stock_scheme_count data) ∧
      (∀ (s : String) (n : ℕ), (s, n) ∈ out → n = nuniqueSchemes data s) := by
  intro data out h
  refine ⟨h.2, fun s n => h.1.mem_iff.symm, fun s n hmem => ?_⟩
  have hm2 : (s, n) ∈ stock_scheme_count data := h.1.mem_iff.mpr hmem
  exact (mem_stock_scheme_count.mp hm2).2

/-- C8, witness: the contract instantiated on the concrete out-of-name-order
output. -/
theorem sort_contract_witness :
    sortedDescB [("B", 1), ("A", 1)] = true ∧
    (("B", 1) ∈ ([("B", 1), ("A", 1)] : List (String × ℕ)) ↔
      ("B", 1) ∈ stock_scheme_count dAB) ∧
    (1 : ℕ) = nuniqueSchemes dAB "B" := by
  have h := sort_contract dAB [("B", 1), ("A", 1)] ⟨by decide, by decide⟩
  exact ⟨h.1, h.2.1 "B" 1, h.2.2 "B" 1 (by decide)⟩

/-- C9: a successful summary is a mapping with exactly the keys
`small_cap` and `mid_cap` in that order, whose row lists (records of type
`SummaryRow`, carrying exactly the fields Stock / # Funds Holding /
Avg % AUM / Sentiment) contain one record per requested target stock, in
request order. -/
theorem summary_output_shape :
    ∀ (setOrder : List String → List String) (holdings : Holdings)
      (ts tm : List String) (m : List (String × List SummaryRow)),
      generate_summary_table setOrder holdings ts tm = .ok m →
      m.map Prod.fst = ["small_cap", "mid_cap"] ∧
      ∀ p ∈ m, p.2.map (fun r => r.Stock) =
        (if p.1 = "small_cap" then ts else tm) := by
  intro so holdings ts tm m hok
  obtain ⟨small, mid, rfl, hs, hm⟩ := generate_ok_inv hok
  refine ⟨rfl, ?_⟩
  intro p hp
  rcases List.mem_cons.mp hp with rfl | hp2
  · simpa using (summarizeAll_ok_mem hs).1
  · rcases List.mem_cons.mp hp2 with rfl | hp3
    · show mid.map (fun r => r.Stock) =
        if ("mid_cap" : String) = "small_cap" then ts else tm
      rw [if_neg (by decide)]
      exact (summarizeAll_ok_mem hm).1
    · simp at hp3

/-- C9, witness: the shape of a concrete successful run. -/
theorem summary_output_shape_witness :
    ([("small_cap", [(⟨"A", 2, 1, "Buy"⟩ : SummaryRow)]), ("mid_cap", [])].map
      Prod.fst = ["small_cap", "mid_cap"]) ∧
    ([(⟨"A", 2, 1, "Buy"⟩ : SummaryRow)].map (fun r => r.Stock) = ["A"]) := by
  have h := summary_output_shape firstDedup hTie ["A"] [] _ eval_hTie_fd
  refine ⟨h.1, ?_⟩
  have h2 := h.2 ("small_cap", [⟨"A", 2, 1, "Buy"⟩]) (by simp)
  exact h2

/-- C10: `categorize_market_cap` is total with exactly the four outputs
`Unknown` (iff the input is absent), and otherwise — after converting the
USD value to INR crores via `value * 83 / 10000000` — `Large Cap` iff the
conversion is at least 20000, `Mid Cap` iff it is in `[5000, 20000)`, and
`Small Cap` iff it is below 5000. -/
theorem categorize_market_cap_correct :
    categorize_market_cap none = "Unknown" ∧
    (∀ v : ℚ,
      (categorize_market_cap (some v) = "Large Cap" ↔
        20000 ≤ v * 83 / 10000000) ∧
      (categorize_market_cap (some v) = "Mid Cap" ↔
        (5000 ≤ v * 83 / 10000000 ∧ v * 83 / 10000000 < 20000)) ∧
      (categorize_market_cap (some v) = "Small Cap" ↔
        v * 83 / 10000000 < 5000)) ∧
    (∀ x : Option ℚ, categorize_market_cap x = "Unknown" ∨
      categorize_market_cap x = "Large Cap" ∨
      categorize_market_cap x = "Mid Cap" ∨
      categorize_market_cap x = "Small Cap") := by
  refine ⟨rfl, fun v => ?_, fun x => ?_⟩
  · simp only [categorize_market_cap]
    by_cases h1 : v * 83 / 10000000 ≥ 20000
    · rw [if_pos h1]
      refine ⟨⟨fun _ => h1, fun _ => rfl⟩, ?_, ?_⟩
      · exact ⟨fun h => absurd h (by decide),
          fun h2 => absurd h1 (not_le.mpr h2.2)⟩
      · exact ⟨fun h => absurd h (by decide),
          fun hlt => absurd h1 (not_le.mpr (by linarith))⟩
    · rw [if_neg h1]
      by_cases h2 : v * 83 / 10000000 ≥ 5000
      · rw [if_pos h2]
        refine ⟨⟨fun h => absurd h (by decide), fun hge => absurd hge h1⟩, ?_, ?_⟩
        · exact ⟨fun _ => ⟨h2, not_le.mp h1⟩, fun _ => rfl⟩
        · exact ⟨fun h => absurd h (by decide),
            fun hlt => absurd h2 (not_le.mpr hlt)⟩
      · rw [if_neg h2]
        refine ⟨⟨fun h => absurd h (by decide), fun hge => absurd hge h1⟩, ?_, ?_⟩
        · exact ⟨fun h => absurd h (by decide), fun hge => absurd hge.1 h2⟩
        · exact ⟨fun _ => not_le.mp h2, fun _ => rfl⟩
  · cases x with
    | none => exact Or.inl rfl
    | some v =>
      simp only [categorize_market_cap]
      by_cases h1 : v * 83 / 10000000 ≥ 20000
      · simp [h1]
      · by_cases h2 : v * 83 / 10000000 ≥ 5000 <;> simp [h1, h2]

/-- C10, witness: the three thresholds and the absent case on concrete
values. -/
theorem categorize_market_cap_witness :
    categorize_market_cap (some 10000000000) = "Large Cap" ∧
    categorize_market_cap (some 1000000000) = "Mid Cap" ∧
    categorize_market_cap (some 100000000) = "Small Cap" ∧
    categorize_market_cap none = "Unknown" :=
  ⟨((categorize_market_cap_correct.2.1 10000000000).1).mpr (by norm_num),
   ((categorize_market_cap_correct.2.1 1000000000).2.1).mpr (by norm_num),
   ((categorize_market_cap_correct.2.1 100000000).2.2).mpr (by norm_num),
   categorize_market_cap_correct.1⟩

end MF
